import Mathlib

/-!
Verification of the TypeScript type-mapper and declaration emitter of
`scripts/generate_typescript.py` (qontinui-schemas).

Python strings are modelled as `List Char` (with `String` wrappers at the
statement level).  The textual mapper `python_type_to_ts` recurses on
substrings produced by splitting and slicing, so it is embedded with a fuel
parameter plus a fuel-irrelevance lemma showing the chosen fuel
(`length + 1`) is always sufficient; this keeps every definition computable
by the kernel.  The structured mapper `get_ts_type_from_annotation` is
embedded over an inductive type of (live) annotation shapes.
-/

/-- Characters of a string literal (model of a Python `str`). -/
def S (s : String) : List Char := s.data

/-- Python `" | " in s` style substring test (`sub in s`). -/
def hasSubL (sep : List Char) : List Char → Bool
  | [] => sep.isEmpty
  | c :: rest => sep.isPrefixOf (c :: rest) || hasSubL sep rest

/-- Python `s.split(" | ")`: split on every non-overlapping occurrence of
the three-character separator, scanning left to right.  `acc` holds the
(reversed) characters of the part currently being read. -/
def splitBar : List Char → List Char → List (List Char)
  | [], acc => [acc.reverse]
  | [c], acc => [(c :: acc).reverse]
  | [c1, c2], acc => [(c2 :: c1 :: acc).reverse]
  | c1 :: c2 :: c3 :: rest, acc =>
    if c1 = ' ' ∧ c2 = '|' ∧ c3 = ' ' then acc.reverse :: splitBar rest []
    else splitBar (c2 :: c3 :: rest) (c1 :: acc)

/-- Python `s.split(".")`. -/
def splitDot : List Char → List Char → List (List Char)
  | [], acc => [acc.reverse]
  | c :: rest, acc =>
    if c = '.' then acc.reverse :: splitDot rest []
    else splitDot rest (c :: acc)

/-- Python `s.strip()` (whitespace from both ends). -/
def pyStrip (l : List Char) : List Char :=
  ((l.dropWhile Char.isWhitespace).reverse.dropWhile Char.isWhitespace).reverse

/-- The module-qualification cleanup used by `python_type_to_ts`:
`if "." in python_type and "[" not in python_type:
    python_type = python_type.split(".")[-1]`. -/
def stripModQual (l : List Char) : List Char :=
  if hasSubL ['.'] l && !(hasSubL ['['] l) then (splitDot l []).getLastD [] else l

/-- Python `sep.join(parts)` over character lists. -/
def joinL (sep : List Char) : List (List Char) → List Char
  | [] => []
  | [x] => x
  | x :: y :: xs => x ++ sep ++ joinL sep (y :: xs)

/-- Python `"\n".join(lines)` / `" | ".join(parts)` over `String`. -/
def joinWith (sep : String) : List String → String
  | [] => ""
  | [x] => x
  | x :: y :: xs => x ++ sep ++ joinWith sep (y :: xs)

/-- The `type_map` dict of `python_type_to_ts`, as a lookup function
(`if python_type in type_map: return type_map[python_type]`). -/
def tmLookup (l : List Char) : Option (List Char) :=
  if l = S "str" then some (S "string")
  else if l = S "int" then some (S "number")
  else if l = S "float" then some (S "number")
  else if l = S "bool" then some (S "boolean")
  else if l = S "None" then some (S "null")
  else if l = S "NoneType" then some (S "null")
  else if l = S "Any" then some (S "any")
  else if l = S "datetime" then some (S "string")
  else if l = S "UUID" then some (S "string")
  else if l = S "date" then some (S "string")
  else if l = S "dict" then some (S "Record<string, any>")
  else none

/-- Fueled core of `python_type_to_ts` (the textual fallback mapper).
One unit of fuel is spent per call; `pyToTsF_stable` below shows any fuel
larger than the input length gives the same (true) result.  The branch
structure mirrors the Python source exactly: qualified-name cleanup, dict
lookup, union split on `" | "`, list form, dict form, `Optional[...]`,
a second (unreachable) union check, and finally the identity fallback. -/
def pyToTsF : Nat → List Char → List Char
  | 0, _ => []
  | fuel+1, l0 =>
    (tmLookup (stripModQual l0)).getD <|
      if hasSubL (S " | ") (stripModQual l0) then
        joinL (S " | ")
          ((splitBar (stripModQual l0) []).map (fun p => pyToTsF fuel (pyStrip p)))
      else if ((S "list[").isPrefixOf (stripModQual l0)
          || (S "List[").isPrefixOf (stripModQual l0))
          && (S "]").isSuffixOf (stripModQual l0) then
        pyToTsF fuel (stripModQual (((stripModQual l0).drop 5).dropLast)) ++ S "[]"
      else if ((S "dict[").isPrefixOf (stripModQual l0)
          || (S "Dict[").isPrefixOf (stripModQual l0))
          && (S "]").isSuffixOf (stripModQual l0) then
        S "Record<string, any>"
      else if (S "Optional[").isPrefixOf (stripModQual l0)
          && (S "]").isSuffixOf (stripModQual l0) then
        pyToTsF fuel (((stripModQual l0).drop 9).dropLast) ++ S " | null"
      else if hasSubL (S " | ") (stripModQual l0) then
        joinL (S " | ")
          ((splitBar (stripModQual l0) []).map (fun p => pyToTsF fuel (pyStrip p)))
      else stripModQual l0

/-- `python_type_to_ts` of `scripts/generate_typescript.py`. -/
def python_type_to_ts (s : String) : String :=
  ⟨pyToTsF (s.data.length + 1) s.data⟩

/-- String-level view of the qualified-name cleanup step. -/
def pyCleanup (s : String) : String := ⟨stripModQual s.data⟩

/-- String-level view of Python `s.split(" | ")`. -/
def pySplitBar (s : String) : List String := (splitBar s.data []).map (fun l => ⟨l⟩)

/-- String-level view of Python `s.strip()`. -/
def pyStripS (s : String) : String := ⟨pyStrip s.data⟩

/-- String-level view of Python `sub in s`. -/
def pyContains (sub s : String) : Bool := hasSubL sub.data s.data

/-! ## Structured path: `get_ts_type_from_annotation` -/

/-- One argument of a `Literal[...]` annotation, as classified by the
source: an `Enum` member (its `.value` rendered by `str`), a plain string,
an enum-like object exposing `.value`, or anything else (its `str(...)`
representation). -/
inductive LitArg where
  | enumMember (value : String)
  | strLit (s : String)
  | withValue (value : String)
  | other (reprStr : String)

mutual
/-- Shape of a live Python type annotation, as the source inspects it:
`type(None)`, a `types.UnionType` (`X | Y`), `typing.Literal[...]`,
a generic with `list`/`dict`/`typing.Union`/other origin, a class with a
`__name__`, `typing.Any`, or an annotation that only stringifies. -/
inductive Ann where
  | noneType
  | unionNew (args : AnnList)
  | lit (args : List LitArg)
  | listOrigin (args : AnnList)
  | dictOrigin (args : AnnList)
  | unionTyping (args : AnnList)
  | otherGeneric (originName : String) (args : AnnList)
  | named (name : String)
  | anyT
  | strAnn (s : String)
/-- A list of annotation shapes (the `__args__` tuple). -/
inductive AnnList where
  | nil
  | cons (hd : Ann) (tl : AnnList)
end

/-- `arg is type(None)` test used inside both union branches. -/
def isNoneType : Ann → Bool
  | .noneType => true
  | _ => false

/-- The `hasattr(annotation, "__name__")` branch: an enum name from
`known_enums` is kept verbatim, anything else goes through
`python_type_to_ts`.  `type(None)` reaches this branch with `__name__`
equal to `"NoneType"`. -/
def getTsNamed (n : String) (ke : List String) : String :=
  if n ∈ ke then n else python_type_to_ts n

/-- Rendering of one `Literal[...]` argument: always a double-quoted
token (`f-string` interpolation of the payload). -/
def renderLit : LitArg → String
  | .enumMember v => "\"" ++ v ++ "\""
  | .strLit s => "\"" ++ s ++ "\""
  | .withValue v => "\"" ++ v ++ "\""
  | .other r => "\"" ++ r ++ "\""

/-- Python `str.replace("typing.", "")` (all occurrences, left to right). -/
def replTyping : List Char → List Char
  | 't' :: 'y' :: 'p' :: 'i' :: 'n' :: 'g' :: '.' :: rest => replTyping rest
  | c :: rest => c :: replTyping rest
  | [] => []

/-- Python `str.replace("typing.Any", "any")`. -/
def replTypingAny : List Char → List Char
  | 't' :: 'y' :: 'p' :: 'i' :: 'n' :: 'g' :: '.' :: 'A' :: 'n' :: 'y' :: rest => S "any" ++ replTypingAny rest
  | c :: rest => c :: replTypingAny rest
  | [] => []

/-- The string-annotation fallback at the end of
`get_ts_type_from_annotation`: `str(annotation)` cleanups (`typing.Any` →
`any`, drop `typing.` prefixes, module-qualification stripping unless the
string starts with `Record`, `dict[` → record) and then the textual
mapper. -/
def strAnnEval (s : String) : String :=
  let t1 := replTypingAny s.data
  let t2 := replTyping t1
  let t3 := if hasSubL ['.'] t2 && !((S "Record").isPrefixOf t2) then
      (splitDot t2 []).getLastD []
    else t2
  if (S "dict[").isPrefixOf t3 then "Record<string, any>" else python_type_to_ts ⟨t3⟩

mutual
/-- Worker of `get_ts_type_from_annotation` on a non-`None` annotation.
Branches in source order: `types.UnionType`, `Literal`, generic origins
(`list` / `dict` / `typing.Union` / other), named types (with enum
lookup), `typing.Any`, string fallback. -/
def getTsAnn : Ann → List String → String
  | .noneType, ke => getTsNamed "NoneType" ke
  | .unionNew args, ke => joinWith " | " (renderUnionMembers args ke)
  | .lit args, _ => joinWith " | " (args.map renderLit)
  | .listOrigin args, ke =>
    match args with
    | .nil => "any[]"
    | .cons a _ => getTsAnn a ke ++ "[]"
  | .dictOrigin _, _ => "Record<string, any>"
  | .unionTyping args, ke => joinWith " | " (renderUnionMembers args ke)
  | .otherGeneric _ _, _ => "any"
  | .named n, ke => getTsNamed n ke
  | .anyT, _ => "any"
  | .strAnn s, _ => strAnnEval s
/-- Member rendering shared by both union spellings: a `type(None)` member
becomes the token `"null"` in place, every other member recurses. -/
def renderUnionMembers : AnnList → List String → List String
  | .nil, _ => []
  | .cons a as, ke =>
    (if isNoneType a then "null" else getTsAnn a ke) :: renderUnionMembers as ke
end

/-- `get_ts_type_from_annotation(annotation, known_enums)`: `None`
annotations map to `"any"`, everything else through the worker. -/
def getTsTypeFromAnn (oa : Option Ann) (ke : List String) : String :=
  match oa with
  | none => "any"
  | some a => getTsAnn a ke

/-- `__args__` concatenation, used to state where the `None` member sits. -/
def appendAL : AnnList → AnnList → AnnList
  | .nil, ys => ys
  | .cons a as, ys => .cons a (appendAL as ys)

/-! ## Emitter: `generate_typescript_from_models` -/

/-- A Pydantic `FieldInfo`, restricted to what the emitter reads:
the type annotation (possibly `None`), `is_required()`, `alias`,
`description`. -/
structure FieldInfo where
  fAnn : Option Ann
  required : Bool
  aliasName : Option String
  description : Option String

/-- One entry of the model list: an `Enum` class (ordered members with
their string-rendered `.value`) or a Pydantic model (ordered
`model_fields`). -/
inductive Model where
  | enumModel (name : String) (members : List (String × String))
  | pydModel (name : String) (fields : List (String × FieldInfo))

/-- The `known_enums` registry: names of the enum entries of the batch. -/
def knownEnums (models : List Model) : List String :=
  models.filterMap (fun m =>
    match m with
    | .enumModel n _ => some n
    | .pydModel _ _ => none)

/-- The fixed header banner lines (including the blank line that follows
them). -/
def headerLines : List String :=
  ["/**",
   " * Auto-generated TypeScript types from qontinui-schemas",
   " * DO NOT EDIT - regenerate with: poetry run python scripts/generate_typescript.py",
   " */",
   ""]

/-- One enum member line: `  NAME = "value",`. -/
def enumMemberLine (p : String × String) : String :=
  "  " ++ p.1 ++ " = \"" ++ p.2 ++ "\","

/-- Lines contributed by one model during the enum pass. -/
def enumLines : Model → List String
  | .enumModel n ms =>
    ("export enum " ++ n ++ " \x7b") :: ms.map enumMemberLine ++ ["\x7d", ""]
  | .pydModel _ _ => []

/-- `field_info.alias if field_info.alias else field_name` (Python
truthiness: an empty-string alias falls back to the field name). -/
def outputName (fn : String) (al : Option String) : String :=
  match al with
  | some a => if a = "" then fn else a
  | none => fn

/-- `field_info.description or ""`. -/
def descOf (d : Option String) : String :=
  match d with
  | some s => s
  | none => ""

/-- Lines contributed by one field: optional JSDoc comment line, then the
field line with optionality marker and mapped type. -/
def fieldLines (ke : List String) (fn : String) (fi : FieldInfo) : List String :=
  (if descOf fi.description = "" then []
   else ["  /** " ++ descOf fi.description ++ " */"]) ++
  ["  " ++ outputName fn fi.aliasName ++ (if fi.required then "" else "?") ++ ": "
    ++ getTsTypeFromAnn fi.fAnn ke ++ ";"]

/-- Lines contributed by one model during the interface pass. -/
def ifaceLines (ke : List String) : Model → List String
  | .enumModel _ _ => []
  | .pydModel n fs =>
    ("export interface " ++ n ++ " \x7b")
      :: fs.flatMap (fun p => fieldLines ke p.1 p.2) ++ ["\x7d", ""]

/-- `generate_typescript_from_models`: header lines, then the enum pass
over all models, then the interface pass, joined with newlines. -/
def generate_typescript_from_models (models : List Model) : String :=
  joinWith "\n"
    (headerLines ++ models.flatMap enumLines
      ++ models.flatMap (ifaceLines (knownEnums models)))


/-! ## Spec-side reformulations (used only in theorem statements) -/

/-- The enum entries of a batch, in input order. -/
def enumsOf (models : List Model) : List (String × List (String × String)) :=
  models.filterMap (fun m =>
    match m with
    | .enumModel n ms => some (n, ms)
    | .pydModel _ _ => none)

/-- The structured-model entries of a batch, in input order. -/
def pydsOf (models : List Model) : List (String × List (String × FieldInfo)) :=
  models.filterMap (fun m =>
    match m with
    | .enumModel _ _ => none
    | .pydModel n fs => some (n, fs))

/-- The fixed header banner, as one string (spec wording). -/
def headerBanner : String :=
  joinWith "\n"
    ["/**",
     " * Auto-generated TypeScript types from qontinui-schemas",
     " * DO NOT EDIT - regenerate with: poetry run python scripts/generate_typescript.py",
     " */"]

/-- An enum block as the spec describes it: declaration header, one line
`  NAME = "value",` per member in declaration order, closing brace. -/
def specEnumBlock (n : String) (ms : List (String × String)) : String :=
  joinWith "\n"
    (("export enum " ++ n ++ " \x7b")
      :: ms.map (fun p => "  " ++ p.1 ++ " = \"" ++ p.2 ++ "\",") ++ ["\x7d"])

/-- An interface block: declaration header, the per-field lines in declared
order, closing brace. -/
def specIfaceBlock (ke : List String) (n : String)
    (fs : List (String × FieldInfo)) : String :=
  joinWith "\n"
    (("export interface " ++ n ++ " \x7b")
      :: fs.flatMap (fun p => fieldLines ke p.1 p.2) ++ ["\x7d"])

/-- The payload the spec says each `Literal` member is quoted from:
the string itself, an enum member's underlying value, or the member's
string representation. -/
def litPayload : LitArg → String
  | .enumMember v => v
  | .strLit s => s
  | .withValue v => v
  | .other r => r

/-- Lines of one enum block without the trailing separator line. -/
def enumCoreLines (n : String) (ms : List (String × String)) : List String :=
  ("export enum " ++ n ++ " \x7b") :: ms.map enumMemberLine ++ ["\x7d"]

/-- Lines of one interface block without the trailing separator line. -/
def ifaceCoreLines (ke : List String) (n : String)
    (fs : List (String × FieldInfo)) : List String :=
  ("export interface " ++ n ++ " \x7b")
    :: fs.flatMap (fun p => fieldLines ke p.1 p.2) ++ ["\x7d"]

/-! ## Length bookkeeping for the textual mapper's recursion -/

theorem splitBar_part_le (s acc : List Char) (p : List Char)
    (hp : p ∈ splitBar s acc) : p.length ≤ acc.length + s.length := by
  induction s, acc using splitBar.induct generalizing p with
  | case1 acc =>
    simp [splitBar] at hp
    simp [hp]
  | case2 c acc =>
    simp [splitBar] at hp
    simp [hp]
  | case3 c1 c2 acc =>
    simp [splitBar] at hp
    simp [hp]
  | case4 c1 c2 c3 rest acc h ih =>
    rw [splitBar, if_pos h] at hp
    rcases List.mem_cons.mp hp with h1 | h1
    · simp [h1]
    · have := ih p h1
      simp at this ⊢
      omega
  | case5 c1 c2 c3 rest acc h ih =>
    rw [splitBar, if_neg h] at hp
    have := ih p hp
    simp at this ⊢
    omega

theorem splitBar_part_lt (s acc : List Char) (p : List Char)
    (hs : hasSubL (S " | ") s = true)
    (hp : p ∈ splitBar s acc) : p.length + 3 ≤ acc.length + s.length := by
  induction s, acc using splitBar.induct generalizing p with
  | case1 acc => simp [hasSubL, S] at hs
  | case2 c acc =>
    simp [hasSubL, List.isPrefixOf, S] at hs
  | case3 c1 c2 acc =>
    simp [hasSubL, List.isPrefixOf, S] at hs
  | case4 c1 c2 c3 rest acc h ih =>
    rw [splitBar, if_pos h] at hp
    rcases List.mem_cons.mp hp with h1 | h1
    · simp [h1]
    · have := splitBar_part_le rest [] p h1
      simp at this ⊢
      omega
  | case5 c1 c2 c3 rest acc h ih =>
    rw [splitBar, if_neg h] at hp
    have hs' : hasSubL (S " | ") (c2 :: c3 :: rest) = true := by
      simp only [hasSubL, List.isPrefixOf, Bool.or_eq_true] at hs ⊢
      rcases hs with hpre | h' 
      · exfalso
        apply h
        simp [S] at hpre
        exact ⟨hpre.1.symm, hpre.2.1.symm, hpre.2.2.symm⟩
      · exact h'
    have := ih p hs' hp
    simp at this ⊢
    omega

theorem splitDot_part_le (s acc : List Char) (p : List Char)
    (hp : p ∈ splitDot s acc) : p.length ≤ acc.length + s.length := by
  induction s, acc using splitDot.induct generalizing p with
  | case1 acc =>
    simp [splitDot] at hp
    simp [hp]
  | case2 rest acc ih =>
    rw [splitDot, if_pos rfl] at hp
    rcases List.mem_cons.mp hp with h1 | h1
    · simp [h1]
    · have := ih p h1
      simp at this ⊢
      omega
  | case3 c rest acc h ih =>
    rw [splitDot, if_neg h] at hp
    have := ih p hp
    simp at this ⊢
    omega

theorem dropWhile_length_le (p : Char → Bool) :
    ∀ l : List Char, (l.dropWhile p).length ≤ l.length := by
  intro l
  induction l with
  | nil => simp
  | cons a as ih =>
    rw [List.dropWhile_cons]
    by_cases h : p a = true
    · rw [if_pos h]
      exact le_trans ih (by simp)
    · rw [if_neg h]

theorem pyStrip_le (l : List Char) : (pyStrip l).length ≤ l.length := by
  simp only [pyStrip, List.length_reverse]
  exact le_trans (dropWhile_length_le _ _)
    (by simpa using dropWhile_length_le Char.isWhitespace l)

theorem stripModQual_le (l : List Char) : (stripModQual l).length ≤ l.length := by
  unfold stripModQual
  split
  · rcases List.mem_cons.mp (List.getLastD_mem_cons (splitDot l []) []) with h1 | h1
    · rw [h1]; simp
    · simpa using splitDot_part_le l [] _ h1
  · exact le_refl _

theorem isPrefixOf_length_le : ∀ (p l : List Char), p.isPrefixOf l = true →
    p.length ≤ l.length := by
  intro p
  induction p with
  | nil => simp
  | cons a as ih =>
    intro l hp
    cases l with
    | nil => simp [List.isPrefixOf] at hp
    | cons b bs =>
      simp only [List.isPrefixOf, Bool.and_eq_true] at hp
      have := ih bs hp.2
      simp only [List.length_cons]
      omega

/-- Fuel irrelevance: any fuel strictly above the input length computes the
same value, i.e. the Python recursion of `python_type_to_ts` terminates and
`python_type_to_ts` is its (unique) value. -/
theorem pyToTsF_stable (f : Nat) : ∀ (g : Nat) (l : List Char),
    l.length < f → l.length < g → pyToTsF f l = pyToTsF g l := by
  induction f with
  | zero => exact fun g l hf _ => absurd hf (Nat.not_lt_zero _)
  | succ f ih =>
    intro g l hf hg
    cases g with
    | zero => exact absurd hg (Nat.not_lt_zero _)
    | succ g =>
      have hq : (stripModQual l).length ≤ l.length := stripModQual_le l
      simp only [pyToTsF]
      cases htm : tmLookup (stripModQual l) with
      | some t => rfl
      | none =>
        simp only [Option.getD_none]
        split_ifs with h1 h2 h3 h4
        · congr 1
          apply List.map_congr_left
          intro p hp
          have hb := splitBar_part_lt (stripModQual l) [] p h1 hp
          have hs := pyStrip_le p
          simp only [List.length_nil, Nat.zero_add] at hb
          exact ih g (pyStrip p) (by omega) (by omega)
        · congr 1
          have h5 : 5 ≤ (stripModQual l).length := by
            simp only [Bool.and_eq_true, Bool.or_eq_true] at h2
            have hS1 : (S "list[").length = 5 := rfl
            have hS2 : (S "List[").length = 5 := rfl
            rcases h2.1 with hp | hp
            · have := isPrefixOf_length_le _ _ hp; omega
            · have := isPrefixOf_length_le _ _ hp; omega
          have harg : (stripModQual (((stripModQual l).drop 5).dropLast)).length
              < (stripModQual l).length := by
            have := stripModQual_le (((stripModQual l).drop 5).dropLast)
            simp only [List.length_dropLast, List.length_drop] at this
            omega
          exact ih g (stripModQual (((stripModQual l).drop 5).dropLast))
            (by omega) (by omega)
        · rfl
        · congr 1
          have h9 : 9 ≤ (stripModQual l).length := by
            simp only [Bool.and_eq_true] at h4
            have hS1 : (S "Optional[").length = 9 := rfl
            have := isPrefixOf_length_le _ _ h4.1; omega
          have harg : (((stripModQual l).drop 9).dropLast).length
              < (stripModQual l).length := by
            simp only [List.length_dropLast, List.length_drop]
            omega
          exact ih g (((stripModQual l).drop 9).dropLast) (by omega) (by omega)
        · rfl

/-! ## Evaluation helpers for symbolic inputs -/

theorem data_append (s t : String) : (s ++ t).data = s.data ++ t.data := rfl

theorem mk_data (l : List Char) : (⟨l⟩ : String).data = l := rfl

theorem hasSubL_single_of_mem {c : Char} : ∀ {l : List Char}, c ∈ l →
    hasSubL [c] l = true := by
  intro l h
  induction l with
  | nil => cases h
  | cons a as ih =>
    rcases List.mem_cons.mp h with h1 | h1
    · subst h1; simp [hasSubL, List.isPrefixOf]
    · simp [hasSubL, ih h1]

theorem stripModQual_bracket {l : List Char} (h : hasSubL ['['] l = true) :
    stripModQual l = l := by
  simp [stripModQual, h]

theorem tmLookup_head_l (rest : List Char) : tmLookup ('l' :: rest) = none := by
  simp [tmLookup, S]

theorem tmLookup_head_L (rest : List Char) : tmLookup ('L' :: rest) = none := by
  simp [tmLookup, S]

theorem tmLookup_head_O (rest : List Char) : tmLookup ('O' :: rest) = none := by
  simp [tmLookup, S]

theorem tmLookup_head_D (rest : List Char) : tmLookup ('D' :: rest) = none := by
  simp [tmLookup, S]

theorem tmLookup_dict_br (rest : List Char) :
    tmLookup ('d' :: 'i' :: 'c' :: 't' :: '[' :: rest) = none := by
  simp [tmLookup, S]

theorem tmLookup_hasBar (l : List Char) (h : hasSubL (S " | ") l = true) :
    tmLookup l = none := by
  have n1 : l ≠ S "str" := by intro he; subst he; revert h; decide
  have n2 : l ≠ S "int" := by intro he; subst he; revert h; decide
  have n3 : l ≠ S "float" := by intro he; subst he; revert h; decide
  have n4 : l ≠ S "bool" := by intro he; subst he; revert h; decide
  have n5 : l ≠ S "None" := by intro he; subst he; revert h; decide
  have n6 : l ≠ S "NoneType" := by intro he; subst he; revert h; decide
  have n7 : l ≠ S "Any" := by intro he; subst he; revert h; decide
  have n8 : l ≠ S "datetime" := by intro he; subst he; revert h; decide
  have n9 : l ≠ S "UUID" := by intro he; subst he; revert h; decide
  have n10 : l ≠ S "date" := by intro he; subst he; revert h; decide
  have n11 : l ≠ S "dict" := by intro he; subst he; revert h; decide
  unfold tmLookup
  rw [if_neg n1, if_neg n2, if_neg n3, if_neg n4, if_neg n5, if_neg n6,
    if_neg n7, if_neg n8, if_neg n9, if_neg n10, if_neg n11]

theorem joinL_mk (sep : List Char) : ∀ ls : List (List Char),
    (⟨joinL sep ls⟩ : String) = joinWith ⟨sep⟩ (ls.map (fun l => (⟨l⟩ : String))) := by
  intro ls
  induction ls with
  | nil => rfl
  | cons x xs ih =>
    cases xs with
    | nil => rfl
    | cons y ys =>
      simp only [List.map_cons] at ih ⊢
      simp only [joinL, joinWith]
      rw [← ih]
      rfl

theorem pyToTsF_eq_toTs (f : Nat) (l : List Char) (hf : l.length < f) :
    pyToTsF f l = (python_type_to_ts ⟨l⟩).data := by
  unfold python_type_to_ts
  rw [mk_data]
  exact pyToTsF_stable f (l.length + 1) l hf (Nat.lt_succ_self _)

/-! ## String-append and join lemmas -/

theorem str_data_ext {a b : String} (h : a.data = b.data) : a = b := by
  cases a
  cases b
  cases h
  rfl

theorem joinWith_append (sep : String) : ∀ xs ys : List String, xs ≠ [] → ys ≠ [] →
    joinWith sep (xs ++ ys) = joinWith sep xs ++ sep ++ joinWith sep ys := by
  intro xs
  induction xs with
  | nil => intro ys h _; exact absurd rfl h
  | cons x xs ih =>
    intro ys _ hy
    cases xs with
    | nil =>
      cases ys with
      | nil => exact absurd rfl hy
      | cons y ys2 => rfl
    | cons x2 xs2 =>
      show x ++ sep ++ joinWith sep ((x2 :: xs2) ++ ys) = _
      rw [ih ys (by simp) hy]
      cases ys with
      | nil => exact absurd rfl hy
      | cons y ys2 =>
        show _ = x ++ sep ++ joinWith sep (x2 :: xs2) ++ sep ++ joinWith sep (y :: ys2)
        rw [String.append_assoc (x ++ sep), String.append_assoc (x ++ sep)]

theorem joinWith_concat_blank (xs : List String) (h : xs ≠ []) :
    joinWith "\n" (xs ++ [""]) = joinWith "\n" xs ++ "\n" := by
  rw [joinWith_append "\n" xs [""] h (by simp)]
  apply str_data_ext
  simp [data_append, joinWith]

theorem joinWith_head_append (a c : String) (r : List String) :
    joinWith "\n\n" ((a ++ "\n\n" ++ c) :: r)
      = a ++ "\n\n" ++ joinWith "\n\n" (c :: r) := by
  cases r with
  | nil => rfl
  | cons y ys =>
    show (a ++ "\n\n" ++ c) ++ "\n\n" ++ joinWith "\n\n" (y :: ys)
      = a ++ "\n\n" ++ (c ++ "\n\n" ++ joinWith "\n\n" (y :: ys))
    apply str_data_ext
    simp [data_append, List.append_assoc]

theorem joinBlocks : ∀ (blocks : List (List String)) (first : List String),
    first ≠ [] → (∀ b ∈ blocks, b ≠ []) →
    joinWith "\n" (first ++ ([""] ++ blocks.flatMap (fun b => b ++ [""])))
      = joinWith "\n\n" (joinWith "\n" first :: blocks.map (joinWith "\n")) ++ "\n" := by
  intro blocks
  induction blocks with
  | nil =>
    intro first h1 _
    show joinWith "\n" (first ++ [""]) = _
    rw [joinWith_concat_blank first h1]
    rfl
  | cons b bs ih =>
    intro first h1 hb
    have hbne : b ≠ [] := hb b (List.mem_cons_self _ _)
    have hbs : ∀ x ∈ bs, x ≠ [] := fun x hx => hb x (List.mem_cons_of_mem _ hx)
    have hfirst2 : (first ++ ([""] ++ b)) ≠ [] := by
      cases first with
      | nil => exact absurd rfl h1
      | cons z zs => simp
    have hrearr : first ++ ([""] ++ (b :: bs).flatMap (fun x => x ++ [""]))
        = (first ++ ([""] ++ b)) ++ ([""] ++ bs.flatMap (fun x => x ++ [""])) := by
      simp [List.flatMap_cons, List.append_assoc]
    rw [hrearr, ih _ hfirst2 hbs]
    have hkey : joinWith "\n" (first ++ ([""] ++ b))
        = joinWith "\n" first ++ "\n\n" ++ joinWith "\n" b := by
      rw [joinWith_append "\n" first ([""] ++ b) h1 (by simp)]
      cases b with
      | nil => exact absurd rfl hbne
      | cons c cs =>
        show joinWith "\n" first ++ "\n" ++ ("" ++ "\n" ++ joinWith "\n" (c :: cs)) = _
        apply str_data_ext
        simp [data_append, List.append_assoc]
    rw [hkey, joinWith_head_append]
    rfl

/-! ## Union-member rendering lemmas -/

theorem renderUnionMembers_append (ke : List String) :
    ∀ xs ys : AnnList, renderUnionMembers (appendAL xs ys) ke
      = renderUnionMembers xs ke ++ renderUnionMembers ys ke := by
  intro xs ys
  induction xs, ys using appendAL.induct with
  | case1 ys => rfl
  | case2 a as ys ih => simp only [appendAL, renderUnionMembers, ih, List.cons_append]

theorem renderUnionMembers_ne_nil (ke : List String) (ms : AnnList)
    (h : ms ≠ .nil) : renderUnionMembers ms ke ≠ [] := by
  cases ms with
  | nil => exact absurd rfl h
  | cons a as => simp [renderUnionMembers]

theorem union_none_last (ke : List String) (ms : AnnList) (h : ms ≠ .nil) :
    joinWith " | " (renderUnionMembers (appendAL ms (.cons .noneType .nil)) ke)
      = joinWith " | " (renderUnionMembers ms ke) ++ " | null" := by
  rw [renderUnionMembers_append]
  have h2 : renderUnionMembers (.cons .noneType .nil) ke = ["null"] := rfl
  rw [h2, joinWith_append _ _ _ (renderUnionMembers_ne_nil ke ms h) (by simp)]
  rw [String.append_assoc]
  rfl

/-! ## Emitter pass lemmas -/

theorem enum_pass : ∀ models : List Model, models.flatMap enumLines
    = ((enumsOf models).map (fun e => enumCoreLines e.1 e.2)).flatMap
        (fun b => b ++ [""]) := by
  intro models
  induction models with
  | nil => rfl
  | cons m ms ih =>
    cases m with
    | enumModel n mbrs =>
      simp only [List.flatMap_cons, enumsOf, List.filterMap_cons, List.map_cons, ih]
      simp [enumLines, enumCoreLines, enumsOf]
    | pydModel n fs =>
      simp only [List.flatMap_cons, enumsOf, List.filterMap_cons, ih]
      simp [enumLines, enumsOf]

theorem iface_pass (ke : List String) : ∀ models : List Model,
    models.flatMap (ifaceLines ke)
    = ((pydsOf models).map (fun i => ifaceCoreLines ke i.1 i.2)).flatMap
        (fun b => b ++ [""]) := by
  intro models
  induction models with
  | nil => rfl
  | cons m ms ih =>
    cases m with
    | enumModel n mbrs =>
      simp only [List.flatMap_cons, pydsOf, List.filterMap_cons, ih]
      simp [ifaceLines, pydsOf]
    | pydModel n fs =>
      simp only [List.flatMap_cons, pydsOf, List.filterMap_cons, List.map_cons, ih]
      simp [ifaceLines, ifaceCoreLines, pydsOf]

/-! ## Claim theorems -/

/-- C1 (counterexample): a `None` member at the head of a `X | Y` union is
rendered as `"null"` in its source position, not normalized into a trailing
`" | null"` suffix: `NoneType | int` maps to `"null | number"`, while the
claim predicts the mapping of the remaining member followed by `" | null"`,
i.e. `"number | null"`. -/
theorem c1_counterexample :
    getTsAnn (.unionNew (.cons .noneType (.cons (.named "int") .nil))) [] = "null | number"
    ∧ getTsAnn (.named "int") [] ++ " | null" = "number | null"
    ∧ ("null | number" : String) ≠ "number | null" := by
  refine ⟨by decide, by decide, by decide⟩

/-- C1 (amended): in both union spellings a `None` member is rendered as the
token `"null"` in its source position; the claimed `Optional`-suffix shape
holds exactly when the `None` member is the last member: appending a
`NoneType` member to a non-empty member list appends `" | null"` to the
union's rendering, and a two-member union `a | None` maps to
`map(a) ++ " | null"` for every non-null `a`. -/
theorem c1_union_none_member_rendering (ke : List String) :
    (∀ ms : AnnList, ms ≠ .nil →
      getTsAnn (.unionNew (appendAL ms (.cons .noneType .nil))) ke
        = getTsAnn (.unionNew ms) ke ++ " | null")
    ∧ (∀ ms : AnnList, ms ≠ .nil →
      getTsAnn (.unionTyping (appendAL ms (.cons .noneType .nil))) ke
        = getTsAnn (.unionTyping ms) ke ++ " | null")
    ∧ (∀ a : Ann, isNoneType a = false →
      getTsAnn (.unionNew (.cons a (.cons .noneType .nil))) ke
        = getTsAnn a ke ++ " | null")
    ∧ (∀ a : Ann, isNoneType a = false →
      getTsAnn (.unionTyping (.cons a (.cons .noneType .nil))) ke
        = getTsAnn a ke ++ " | null") := by
  refine ⟨fun ms h => ?_, fun ms h => ?_, fun a ha => ?_, fun a ha => ?_⟩
  · show joinWith " | " (renderUnionMembers (appendAL ms (.cons .noneType .nil)) ke) = _
    rw [union_none_last ke ms h]
    rfl
  · show joinWith " | " (renderUnionMembers (appendAL ms (.cons .noneType .nil)) ke) = _
    rw [union_none_last ke ms h]
    rfl
  · show joinWith " | " (renderUnionMembers (.cons a (.cons .noneType .nil)) ke) = _
    have hnn : isNoneType Ann.noneType = true := rfl
    simp only [renderUnionMembers, ha, hnn, Bool.false_eq_true, if_false, if_true,
      joinWith]
    rw [String.append_assoc]
    rfl
  · show joinWith " | " (renderUnionMembers (.cons a (.cons .noneType .nil)) ke) = _
    have hnn : isNoneType Ann.noneType = true := rfl
    simp only [renderUnionMembers, ha, hnn, Bool.false_eq_true, if_false, if_true,
      joinWith]
    rw [String.append_assoc]
    rfl

/-- C1 (witness): instantiation of the amended claim at `int | None`. -/
theorem c1_witness :
    getTsAnn (.unionNew (.cons (.named "int") (.cons .noneType .nil))) []
      = getTsAnn (.named "int") [] ++ " | null" :=
  (c1_union_none_member_rendering []).2.2.1 (.named "int") rfl

/-- C2: in the textual fallback the union split on `" | "` is applied before
list/dict form detection: `"list[str] | None"` maps to `"string[] | null"`,
and in general whenever the (module-qualification-cleaned) input contains
`" | "` the result is the `" | "`-join of the mappings of the stripped
split parts. -/
theorem c2_union_split_precedence :
    python_type_to_ts "list[str] | None" = "string[] | null"
    ∧ ∀ s : String, pyContains " | " (pyCleanup s) = true →
      python_type_to_ts s
        = joinWith " | " ((pySplitBar (pyCleanup s)).map
            (fun p => python_type_to_ts (pyStripS p))) := by
  refine ⟨by decide, ?_⟩
  intro s h
  have h' : hasSubL (S " | ") (stripModQual s.data) = true := h
  show (⟨pyToTsF (s.data.length + 1) s.data⟩ : String) = _
  simp only [pyToTsF]
  rw [tmLookup_hasBar _ h', Option.getD_none, if_pos h']
  rw [joinL_mk]
  have hsep : (⟨S " | "⟩ : String) = " | " := rfl
  rw [hsep, List.map_map]
  show _ = joinWith " | " (((splitBar (stripModQual s.data) []).map
      (fun l => (⟨l⟩ : String))).map (fun p => python_type_to_ts (pyStripS p)))
  rw [List.map_map]
  refine congrArg _ (List.map_congr_left ?_)
  intro p hp
  have hb := splitBar_part_lt (stripModQual s.data) [] p h' hp
  have hs := pyStrip_le p
  have hq := stripModQual_le s.data
  simp only [List.length_nil, Nat.zero_add] at hb
  show (⟨pyToTsF s.data.length (pyStrip p)⟩ : String) = _
  rw [pyToTsF_eq_toTs s.data.length (pyStrip p) (by omega)]
  rfl

/-- C2 (witness): instantiation of the general precedence statement at
`"int | str"`. -/
theorem c2_witness :
    pyContains " | " (pyCleanup "int | str") = true
    ∧ python_type_to_ts "int | str"
      = joinWith " | " ((pySplitBar (pyCleanup "int | str")).map
          (fun p => python_type_to_ts (pyStripS p))) :=
  ⟨by decide, c2_union_split_precedence.2 "int | str" (by decide)⟩

/-- C3 (counterexample): list-form detection is case-sensitive on the two
spellings `list[` and `List[`; the all-caps spelling `LIST[str]` is not
recognized and falls through unchanged rather than mapping to
`"string[]"`. -/
theorem c3_counterexample :
    python_type_to_ts "LIST[str]" = "LIST[str]"
    ∧ python_type_to_ts "str" ++ "[]" = "string[]"
    ∧ ("LIST[str]" : String) ≠ "string[]" := by
  refine ⟨by decide, by decide, by decide⟩

/-- C3 (amended): list-form detection fires exactly for the two spellings
`list[` and `List[` (prefix) with a `]` suffix; when the string does not
contain `" | "` (which would trigger the earlier union split), the result
is the mapping of the bracket interior — with an unbracketed module
qualification stripped — followed by `"[]"`. -/
theorem c3_list_detection_amended :
    (∀ t : String, pyContains " | " ("list[" ++ t ++ "]") = false →
      python_type_to_ts ("list[" ++ t ++ "]")
        = python_type_to_ts (pyCleanup t) ++ "[]")
    ∧ (∀ t : String, pyContains " | " ("List[" ++ t ++ "]") = false →
      python_type_to_ts ("List[" ++ t ++ "]")
        = python_type_to_ts (pyCleanup t) ++ "[]") := by
  constructor
  · intro t h
    have hdata : ("list[" ++ t ++ "]").data = S "list[" ++ (t.data ++ [']']) := by
      rw [data_append, data_append, List.append_assoc]
      rfl
    show (⟨pyToTsF (("list[" ++ t ++ "]").data.length + 1)
      ("list[" ++ t ++ "]").data⟩ : String) = _
    rw [hdata]
    obtain ⟨N, hN⟩ : ∃ n : Nat, (S "list[" ++ (t.data ++ [']'])).length = n := ⟨_, rfl⟩
    rw [hN]
    simp only [pyToTsF]
    have hbr : hasSubL ['['] (S "list[" ++ (t.data ++ [']'])) = true :=
      hasSubL_single_of_mem (List.mem_append_left _ (by decide))
    rw [stripModQual_bracket hbr]
    have hlk : tmLookup (S "list[" ++ (t.data ++ [']'])) = none := tmLookup_head_l _
    rw [hlk, Option.getD_none]
    have hu : hasSubL (S " | ") (S "list[" ++ (t.data ++ [']'])) = false := by
      rw [← hdata]
      exact h
    rw [if_neg (by simp [hu])]
    have hpre : (S "list[").isPrefixOf (S "list[" ++ (t.data ++ [']'])) = true := by
      simp [S, List.isPrefixOf]
    have hsuf : (S "]").isSuffixOf (S "list[" ++ (t.data ++ [']'])) = true := by
      rw [← List.append_assoc]
      simp [S, List.isSuffixOf]
    rw [if_pos (by simp [hpre, hsuf])]
    have hinner : ((S "list[" ++ (t.data ++ [']'])).drop 5).dropLast = t.data := by
      have hd : (S "list[" ++ (t.data ++ [']'])).drop 5 = t.data ++ [']'] := rfl
      rw [hd]
      simp
    rw [hinner]
    have hlen : (stripModQual t.data).length < N := by
      have h1 := stripModQual_le t.data
      have h2 : (S "list[").length = 5 := rfl
      rw [← hN]
      simp only [List.length_append]
      omega
    rw [pyToTsF_eq_toTs _ (stripModQual t.data) hlen]
    rfl
  · intro t h
    have hdata : ("List[" ++ t ++ "]").data = S "List[" ++ (t.data ++ [']']) := by
      rw [data_append, data_append, List.append_assoc]
      rfl
    show (⟨pyToTsF (("List[" ++ t ++ "]").data.length + 1)
      ("List[" ++ t ++ "]").data⟩ : String) = _
    rw [hdata]
    obtain ⟨N, hN⟩ : ∃ n : Nat, (S "List[" ++ (t.data ++ [']'])).length = n := ⟨_, rfl⟩
    rw [hN]
    simp only [pyToTsF]
    have hbr : hasSubL ['['] (S "List[" ++ (t.data ++ [']'])) = true :=
      hasSubL_single_of_mem (List.mem_append_left _ (by decide))
    rw [stripModQual_bracket hbr]
    have hlk : tmLookup (S "List[" ++ (t.data ++ [']'])) = none := tmLookup_head_L _
    rw [hlk, Option.getD_none]
    have hu : hasSubL (S " | ") (S "List[" ++ (t.data ++ [']'])) = false := by
      rw [← hdata]
      exact h
    rw [if_neg (by simp [hu])]
    have hpre : (S "List[").isPrefixOf (S "List[" ++ (t.data ++ [']'])) = true := by
      simp [S, List.isPrefixOf]
    have hsuf : (S "]").isSuffixOf (S "List[" ++ (t.data ++ [']'])) = true := by
      rw [← List.append_assoc]
      simp [S, List.isSuffixOf]
    rw [if_pos (by simp [hpre, hsuf])]
    have hinner : ((S "List[" ++ (t.data ++ [']'])).drop 5).dropLast = t.data := by
      have hd : (S "List[" ++ (t.data ++ [']'])).drop 5 = t.data ++ [']'] := rfl
      rw [hd]
      simp
    rw [hinner]
    have hlen : (stripModQual t.data).length < N := by
      have h1 := stripModQual_le t.data
      have h2 : (S "List[").length = 5 := rfl
      rw [← hN]
      simp only [List.length_append]
      omega
    rw [pyToTsF_eq_toTs _ (stripModQual t.data) hlen]
    rfl

/-- C3 (witness): instantiation at interior `"module.Foo"`, exercising the
interior module-qualification strip. -/
theorem c3_witness :
    pyContains " | " ("list[" ++ "module.Foo" ++ "]") = false
    ∧ python_type_to_ts ("list[" ++ "module.Foo" ++ "]")
        = python_type_to_ts (pyCleanup "module.Foo") ++ "[]" :=
  ⟨by decide, c3_list_detection_amended.1 "module.Foo" (by decide)⟩

/-- C4: the emitted blob is the fixed header banner, then one block per
enum in input order, then one block per structured model in input order,
all separated by exactly one blank line (a `"\n\n"` join, plus the trailing
newline); each enum block lists its members in declaration order as
`  NAME = "value",` lines built from the member's underlying value. -/
theorem c4_batch_assembly (models : List Model) :
    generate_typescript_from_models models
      = joinWith "\n\n" (headerBanner
          :: ((enumsOf models).map (fun e => specEnumBlock e.1 e.2)
            ++ (pydsOf models).map
                (fun i => specIfaceBlock (knownEnums models) i.1 i.2)))
        ++ "\n" := by
  unfold generate_typescript_from_models
  rw [enum_pass, iface_pass]
  have hh : headerLines
      = ["/**", " * Auto-generated TypeScript types from qontinui-schemas",
         " * DO NOT EDIT - regenerate with: poetry run python scripts/generate_typescript.py",
         " */"] ++ [""] := rfl
  rw [hh]
  have hshape : (["/**", " * Auto-generated TypeScript types from qontinui-schemas",
         " * DO NOT EDIT - regenerate with: poetry run python scripts/generate_typescript.py",
         " */"] ++ [""]
      ++ ((enumsOf models).map (fun e => enumCoreLines e.1 e.2)).flatMap (fun b => b ++ [""]))
      ++ ((pydsOf models).map (fun i => ifaceCoreLines (knownEnums models) i.1 i.2)).flatMap
          (fun b => b ++ [""])
      = ["/**", " * Auto-generated TypeScript types from qontinui-schemas",
         " * DO NOT EDIT - regenerate with: poetry run python scripts/generate_typescript.py",
         " */"]
        ++ ([""] ++ ((enumsOf models).map (fun e => enumCoreLines e.1 e.2)
          ++ (pydsOf models).map (fun i => ifaceCoreLines (knownEnums models) i.1 i.2)).flatMap
            (fun b => b ++ [""])) := by
    simp [List.flatMap_append, List.append_assoc]
  rw [hshape]
  have hne : ∀ b ∈ ((enumsOf models).map (fun e => enumCoreLines e.1 e.2)
      ++ (pydsOf models).map (fun i => ifaceCoreLines (knownEnums models) i.1 i.2)),
      b ≠ [] := by
    intro b hb
    rcases List.mem_append.mp hb with h | h
    · obtain ⟨e, _, rfl⟩ := List.mem_map.mp h
      simp [enumCoreLines]
    · obtain ⟨e, _, rfl⟩ := List.mem_map.mp h
      simp [ifaceCoreLines]
  rw [joinBlocks _ _ (by simp) hne]
  simp only [List.map_append, List.map_map]
  rfl

/-- C5 (counterexample): Python truthiness makes an empty-string wire
alias fall back to the internal field name, and an empty-string
documentation string emits no comment line, although both are "present";
the claim predicts the alias (here the empty name) would be emitted and a
comment line would appear. -/
theorem c5_counterexample :
    fieldLines [] "x" ⟨none, true, some "", none⟩ = ["  x: any;"]
    ∧ fieldLines [] "x" ⟨none, true, some "", none⟩ ≠ ["  : any;"]
    ∧ fieldLines [] "y" ⟨none, true, none, some ""⟩ = ["  y: any;"] := by
  refine ⟨by decide, by decide, by decide⟩

/-- C5 (amended): the field line carries `?` exactly when the field is not
required; the emitted name is the wire alias when a non-empty one is
present and the internal name otherwise; a standalone comment line is
emitted immediately above the field line exactly when a non-empty
documentation string is present. -/
theorem c5_field_emission_amended (ke : List String) (fn : String) (fi : FieldInfo) :
    (fi.required = false →
      fieldLines ke fn fi
        = (if descOf fi.description = "" then []
           else ["  /** " ++ descOf fi.description ++ " */"])
          ++ ["  " ++ outputName fn fi.aliasName ++ "?" ++ ": "
              ++ getTsTypeFromAnn fi.fAnn ke ++ ";"])
    ∧ (fi.required = true →
      fieldLines ke fn fi
        = (if descOf fi.description = "" then []
           else ["  /** " ++ descOf fi.description ++ " */"])
          ++ ["  " ++ outputName fn fi.aliasName ++ ": "
              ++ getTsTypeFromAnn fi.fAnn ke ++ ";"])
    ∧ (∀ a, fi.aliasName = some a → a ≠ "" → outputName fn fi.aliasName = a)
    ∧ (fi.aliasName = none ∨ fi.aliasName = some "" → outputName fn fi.aliasName = fn)
    ∧ (∀ d, fi.description = some d → d ≠ "" →
      fieldLines ke fn fi
        = ["  /** " ++ d ++ " */",
           "  " ++ outputName fn fi.aliasName ++ (if fi.required then "" else "?")
             ++ ": " ++ getTsTypeFromAnn fi.fAnn ke ++ ";"])
    ∧ (fi.description = none ∨ fi.description = some "" →
      fieldLines ke fn fi
        = ["  " ++ outputName fn fi.aliasName ++ (if fi.required then "" else "?")
             ++ ": " ++ getTsTypeFromAnn fi.fAnn ke ++ ";"]) := by
  refine ⟨fun h => ?_, fun h => ?_, fun a ha hne => ?_, fun h => ?_,
    fun d hd hne => ?_, fun h => ?_⟩
  · simp only [fieldLines, h, if_false, Bool.false_eq_true]
  · simp only [fieldLines, h, if_true]
    have hline : "  " ++ outputName fn fi.aliasName ++ "" ++ ": "
        ++ getTsTypeFromAnn fi.fAnn ke ++ ";"
        = "  " ++ outputName fn fi.aliasName ++ ": "
          ++ getTsTypeFromAnn fi.fAnn ke ++ ";" := by
      apply str_data_ext
      simp [data_append]
    rw [hline]
  · simp [outputName, ha, hne]
  · rcases h with h | h <;> simp [outputName, h]
  · simp [fieldLines, descOf, hd, hne]
  · rcases h with h | h <;> simp [fieldLines, descOf, h]

/-- C5 (witness): a non-empty alias wins; a non-empty docstring yields the
comment line. -/
theorem c5_witness :
    outputName "x" (FieldInfo.mk none true (some "wireX") none).aliasName = "wireX"
    ∧ fieldLines [] "y" ⟨none, false, none, some "doc"⟩
        = ["  /** doc */",
           "  " ++ outputName "y" (FieldInfo.mk none false none (some "doc")).aliasName
             ++ (if (FieldInfo.mk none false none (some "doc")).required then "" else "?")
             ++ ": " ++ getTsTypeFromAnn (FieldInfo.mk none false none (some "doc")).fAnn []
             ++ ";"] :=
  ⟨(c5_field_emission_amended [] "x" ⟨none, true, some "wireX", none⟩).2.2.1
      "wireX" rfl (by decide),
   (c5_field_emission_amended [] "y" ⟨none, false, none, some "doc"⟩).2.2.2.2.1
      "doc" rfl (by decide)⟩

/-- C6: union mapping preserves member order with no de-duplication, for
both the modern and the legacy union spellings: `UnionOf [A, B, A]` renders
as the three-token join `map(A) | map(B) | map(A)` for all non-null
descriptors `A`, `B`. -/
theorem c6_union_order_preserved (ke : List String) (A B : Ann)
    (ha : isNoneType A = false) (hb : isNoneType B = false) :
    getTsAnn (.unionNew (.cons A (.cons B (.cons A .nil)))) ke
      = getTsAnn A ke ++ " | " ++ getTsAnn B ke ++ " | " ++ getTsAnn A ke
    ∧ getTsAnn (.unionTyping (.cons A (.cons B (.cons A .nil)))) ke
      = getTsAnn A ke ++ " | " ++ getTsAnn B ke ++ " | " ++ getTsAnn A ke := by
  constructor
  · show joinWith " | " (renderUnionMembers (.cons A (.cons B (.cons A .nil))) ke) = _
    simp only [renderUnionMembers, ha, hb, Bool.false_eq_true, if_false, joinWith]
    rw [String.append_assoc (getTsAnn A ke ++ " | "),
      String.append_assoc (getTsAnn A ke ++ " | ")]
  · show joinWith " | " (renderUnionMembers (.cons A (.cons B (.cons A .nil))) ke) = _
    simp only [renderUnionMembers, ha, hb, Bool.false_eq_true, if_false, joinWith]
    rw [String.append_assoc (getTsAnn A ke ++ " | "),
      String.append_assoc (getTsAnn A ke ++ " | ")]

/-- C6 (witness): instantiation at named references `A`, `B`. -/
theorem c6_witness :
    getTsAnn (.unionNew (.cons (.named "A") (.cons (.named "B")
        (.cons (.named "A") .nil)))) []
      = getTsAnn (.named "A") [] ++ " | " ++ getTsAnn (.named "B") []
        ++ " | " ++ getTsAnn (.named "A") [] :=
  (c6_union_order_preserved [] (.named "A") (.named "B") rfl rfl).1

/-- C7 (counterexample): a textual dict form whose value type contains
`" | "` hits the earlier union split and does not map to the generic
record type. -/
theorem c7_counterexample :
    python_type_to_ts "dict[int | str]" = "dict[int | str]"
    ∧ ("dict[int | str]" : String) ≠ "Record<string, any>" := by
  refine ⟨by decide, by decide⟩

/-- C7 (amended): every structured dict-origin annotation maps to
`Record<string, any>` regardless of its arguments, and every textual
`dict[...]`/`Dict[...]` form maps to `Record<string, any>` provided the
string does not contain `" | "` (otherwise the union split runs first). -/
theorem c7_dict_simplification_amended :
    (∀ t : String, pyContains " | " ("dict[" ++ t ++ "]") = false →
      python_type_to_ts ("dict[" ++ t ++ "]") = "Record<string, any>")
    ∧ (∀ t : String, pyContains " | " ("Dict[" ++ t ++ "]") = false →
      python_type_to_ts ("Dict[" ++ t ++ "]") = "Record<string, any>")
    ∧ (∀ (ke : List String) (args : AnnList),
      getTsAnn (.dictOrigin args) ke = "Record<string, any>") := by
  refine ⟨?_, ?_, fun ke args => rfl⟩
  · intro t h
    have hdata : ("dict[" ++ t ++ "]").data = S "dict[" ++ (t.data ++ [']']) := by
      rw [data_append, data_append, List.append_assoc]
      rfl
    show (⟨pyToTsF (("dict[" ++ t ++ "]").data.length + 1)
      ("dict[" ++ t ++ "]").data⟩ : String) = _
    rw [hdata]
    obtain ⟨N, hN⟩ : ∃ n : Nat, (S "dict[" ++ (t.data ++ [']'])).length = n := ⟨_, rfl⟩
    rw [hN]
    simp only [pyToTsF]
    have hbr : hasSubL ['['] (S "dict[" ++ (t.data ++ [']'])) = true :=
      hasSubL_single_of_mem (List.mem_append_left _ (by decide))
    rw [stripModQual_bracket hbr]
    have hlk : tmLookup (S "dict[" ++ (t.data ++ [']'])) = none := tmLookup_dict_br _
    rw [hlk, Option.getD_none]
    have hu : hasSubL (S " | ") (S "dict[" ++ (t.data ++ [']'])) = false := by
      rw [← hdata]
      exact h
    rw [if_neg (by simp [hu])]
    have hl1 : (S "list[").isPrefixOf (S "dict[" ++ (t.data ++ [']'])) = false := by
      simp [S, List.isPrefixOf]
    have hl2 : (S "List[").isPrefixOf (S "dict[" ++ (t.data ++ [']'])) = false := by
      simp [S, List.isPrefixOf]
    rw [if_neg (by simp [hl1, hl2])]
    have hpre : (S "dict[").isPrefixOf (S "dict[" ++ (t.data ++ [']'])) = true := by
      simp [S, List.isPrefixOf]
    have hsuf : (S "]").isSuffixOf (S "dict[" ++ (t.data ++ [']'])) = true := by
      rw [← List.append_assoc]
      simp [S, List.isSuffixOf]
    rw [if_pos (by simp [hpre, hsuf])]
    rfl
  · intro t h
    have hdata : ("Dict[" ++ t ++ "]").data = S "Dict[" ++ (t.data ++ [']']) := by
      rw [data_append, data_append, List.append_assoc]
      rfl
    show (⟨pyToTsF (("Dict[" ++ t ++ "]").data.length + 1)
      ("Dict[" ++ t ++ "]").data⟩ : String) = _
    rw [hdata]
    obtain ⟨N, hN⟩ : ∃ n : Nat, (S "Dict[" ++ (t.data ++ [']'])).length = n := ⟨_, rfl⟩
    rw [hN]
    simp only [pyToTsF]
    have hbr : hasSubL ['['] (S "Dict[" ++ (t.data ++ [']'])) = true :=
      hasSubL_single_of_mem (List.mem_append_left _ (by decide))
    rw [stripModQual_bracket hbr]
    have hlk : tmLookup (S "Dict[" ++ (t.data ++ [']'])) = none := tmLookup_head_D _
    rw [hlk, Option.getD_none]
    have hu : hasSubL (S " | ") (S "Dict[" ++ (t.data ++ [']'])) = false := by
      rw [← hdata]
      exact h
    rw [if_neg (by simp [hu])]
    have hl1 : (S "list[").isPrefixOf (S "Dict[" ++ (t.data ++ [']'])) = false := by
      simp [S, List.isPrefixOf]
    have hl2 : (S "List[").isPrefixOf (S "Dict[" ++ (t.data ++ [']'])) = false := by
      simp [S, List.isPrefixOf]
    rw [if_neg (by simp [hl1, hl2])]
    have hpre : (S "Dict[").isPrefixOf (S "Dict[" ++ (t.data ++ [']'])) = true := by
      simp [S, List.isPrefixOf]
    have hsuf : (S "]").isSuffixOf (S "Dict[" ++ (t.data ++ [']'])) = true := by
      rw [← List.append_assoc]
      simp [S, List.isSuffixOf]
    rw [if_pos (by simp [hpre, hsuf])]
    rfl

/-- C7 (witness): instantiation at `dict[str, int]` and a structured
dict-origin annotation. -/
theorem c7_witness :
    pyContains " | " ("dict[" ++ "str, int" ++ "]") = false
    ∧ python_type_to_ts ("dict[" ++ "str, int" ++ "]") = "Record<string, any>" :=
  ⟨by decide, c7_dict_simplification_amended.1 "str, int" (by decide)⟩

/-- C8 (counterexample): `Optional` wrapping is not compositional for an
interior containing `" | "`: the union split fires first and
`Optional[int | str]` falls through unchanged instead of mapping to
`map("int | str") ++ " | null"`. -/
theorem c8_counterexample :
    python_type_to_ts "Optional[int | str]" = "Optional[int | str]"
    ∧ python_type_to_ts "int | str" ++ " | null" = "number | string | null"
    ∧ ("Optional[int | str]" : String) ≠ "number | string | null" := by
  refine ⟨by decide, by decide, by decide⟩

/-- C8 (amended): for every interior `D` such that `Optional[D]` does not
contain `" | "` (otherwise the earlier union split applies), mapping
`"Optional[" ++ D ++ "]"` yields the mapping of `D` followed by
`" | null"`. -/
theorem c8_optional_wrapping_amended (t : String)
    (h : pyContains " | " ("Optional[" ++ t ++ "]") = false) :
    python_type_to_ts ("Optional[" ++ t ++ "]")
      = python_type_to_ts t ++ " | null" := by
  have hdata : ("Optional[" ++ t ++ "]").data = S "Optional[" ++ (t.data ++ [']']) := by
    rw [data_append, data_append, List.append_assoc]
    rfl
  show (⟨pyToTsF (("Optional[" ++ t ++ "]").data.length + 1)
    ("Optional[" ++ t ++ "]").data⟩ : String) = _
  rw [hdata]
  obtain ⟨N, hN⟩ : ∃ n : Nat, (S "Optional[" ++ (t.data ++ [']'])).length = n := ⟨_, rfl⟩
  rw [hN]
  simp only [pyToTsF]
  have hbr : hasSubL ['['] (S "Optional[" ++ (t.data ++ [']'])) = true :=
    hasSubL_single_of_mem (List.mem_append_left _ (by decide))
  rw [stripModQual_bracket hbr]
  have hlk : tmLookup (S "Optional[" ++ (t.data ++ [']'])) = none := tmLookup_head_O _
  rw [hlk, Option.getD_none]
  have hu : hasSubL (S " | ") (S "Optional[" ++ (t.data ++ [']'])) = false := by
    rw [← hdata]
    exact h
  rw [if_neg (by simp [hu])]
  have hl1 : (S "list[").isPrefixOf (S "Optional[" ++ (t.data ++ [']'])) = false := by
    simp [S, List.isPrefixOf]
  have hl2 : (S "List[").isPrefixOf (S "Optional[" ++ (t.data ++ [']'])) = false := by
    simp [S, List.isPrefixOf]
  rw [if_neg (by simp [hl1, hl2])]
  have hd1 : (S "dict[").isPrefixOf (S "Optional[" ++ (t.data ++ [']'])) = false := by
    simp [S, List.isPrefixOf]
  have hd2 : (S "Dict[").isPrefixOf (S "Optional[" ++ (t.data ++ [']'])) = false := by
    simp [S, List.isPrefixOf]
  rw [if_neg (by simp [hd1, hd2])]
  have hpre : (S "Optional[").isPrefixOf (S "Optional[" ++ (t.data ++ [']'])) = true := by
    simp [S, List.isPrefixOf]
  have hsuf : (S "]").isSuffixOf (S "Optional[" ++ (t.data ++ [']'])) = true := by
    rw [← List.append_assoc]
    simp [S, List.isSuffixOf]
  rw [if_pos (by simp [hpre, hsuf])]
  have hinner : ((S "Optional[" ++ (t.data ++ [']'])).drop 9).dropLast = t.data := by
    have hd : (S "Optional[" ++ (t.data ++ [']'])).drop 9 = t.data ++ [']'] := rfl
    rw [hd]
    simp
  rw [hinner]
  have hlen : t.data.length < N := by
    have h2 : (S "Optional[").length = 9 := rfl
    rw [← hN]
    simp only [List.length_append]
    omega
  rw [pyToTsF_eq_toTs _ t.data hlen]
  rfl

/-- C8 (witness): instantiation at interior `"int"`. -/
theorem c8_witness :
    pyContains " | " ("Optional[" ++ "int" ++ "]") = false
    ∧ python_type_to_ts ("Optional[" ++ "int" ++ "]")
        = python_type_to_ts "int" ++ " | null" :=
  ⟨by decide, c8_optional_wrapping_amended "int" (by decide)⟩

/-- C9: the mapper is total and never raises: the textual mapper's
recursion is well defined (its value is independent of any fuel above the
input's length), a `None` annotation and every unrecognized generic origin
map to `"any"`, and every input yields some output string. -/
theorem c9_mapper_total_never_raises :
    (∀ f g l, l.length < f → l.length < g → pyToTsF f l = pyToTsF g l)
    ∧ (∀ ke : List String, getTsTypeFromAnn none ke = "any")
    ∧ (∀ (ke : List String) (nm : String) (args : AnnList),
      getTsAnn (.otherGeneric nm args) ke = "any")
    ∧ ∀ (oa : Option Ann) (ke : List String), ∃ t : String,
      getTsTypeFromAnn oa ke = t :=
  ⟨fun f g l hf hg => pyToTsF_stable f g l hf hg, fun _ => rfl,
   fun _ _ _ => rfl, fun oa ke => ⟨getTsTypeFromAnn oa ke, rfl⟩⟩

/-- C9 (witness): fuel irrelevance at `"int"`, and the `any` fallbacks. -/
theorem c9_witness :
    pyToTsF 10 (S "int") = pyToTsF 20 (S "int")
    ∧ getTsTypeFromAnn none [] = "any"
    ∧ getTsAnn (.otherGeneric "tuple" .nil) [] = "any" :=
  ⟨c9_mapper_total_never_raises.1 10 20 (S "int") (by decide) (by decide),
   c9_mapper_total_never_raises.2.1 [],
   c9_mapper_total_never_raises.2.2.1 [] "tuple" .nil⟩

/-- C10: every member of a structured `Literal` annotation renders as a
double-quoted token — the payload being the string itself, an enum
member's underlying value, a `.value` attribute, or the member's string
representation — joined with `" | "`; in particular the numeric
`Literal[1]` becomes the string literal type `"1"`. -/
theorem c10_literal_members_quoted (ke : List String) (args : List LitArg) :
    getTsAnn (.lit args) ke
      = joinWith " | " (args.map (fun a => "\"" ++ litPayload a ++ "\""))
    ∧ getTsAnn (.lit [.other "1"]) ke = "\"1\"" := by
  constructor
  · show joinWith " | " (args.map renderLit) = _
    refine congrArg _ (List.map_congr_left ?_)
    intro a _
    cases a <;> rfl
  · rfl
